import Mathlib

/-!
Verification development for the ai-job-assistant repository.

The definitions below are a shallow embedding of the Python code in
`src/llm_refiner.py`, `src/rank_jobs.py`, `src/ranking/rank_jobs.py`,
`src/ranking/embedding_utils.py` and `src/sql/__init__.py`.
Python floats are modelled exactly (finite values as rationals, plus the
special values `inf`, `-inf`, `nan`); machine rounding is not relevant to
any of the properties treated here, which are about parsing, dispatch,
ordering and persistence logic.
-/

/-- Model of a Python float value: a finite rational or one of the special
values produced by `float("inf")`, `float("-inf")`, `float("nan")`. -/
inductive PyFloat where
  | finite (q : ℚ)
  | inf
  | neginf
  | nan
deriving DecidableEq, Repr

/-- Model of the Python exceptions that the embedded code can raise and
that are relevant here: `TypeError` (iterating a non-iterable value,
unhashable dict key, `float(None)`) and `AttributeError` (calling `.get`
on a value that is not a dict). -/
inductive PyExc where
  | typeError
  | attributeError
deriving DecidableEq, Repr

/-- ASCII whitespace recognised by Python `str.strip()` and by the regex
class `\s` (space, tab, newline, carriage return, vertical tab, form feed).
The inputs in this development are ASCII, so the extra Unicode whitespace
accepted by CPython is not modelled. -/
def isPyWs (c : Char) : Bool :=
  c = ' ' || c = '\t' || c = '\n' || c = '\r' || c = '\x0b' || c = '\x0c'

/-- Strip a character class from both ends of a character list. -/
def trimBy (p : Char → Bool) (cs : List Char) : List Char :=
  ((cs.dropWhile p).reverse.dropWhile p).reverse

/-- Model of Python `str.strip()` (no arguments): remove whitespace from
both ends. -/
def pyStrip (s : String) : String :=
  ⟨trimBy isPyWs s.data⟩

/-- Model of Python `str.strip('"')`: remove double-quote characters from
both ends. -/
def stripQuotes (cs : List Char) : List Char :=
  trimBy (· = '"') cs

/-- Numeric value of one decimal digit character. -/
def digitVal (c : Char) : ℕ := c.toNat - 48

/-- Value of a list of decimal digit characters read in base 10. -/
def natOfDigits (ds : List Char) : ℕ :=
  ds.foldl (fun a c => 10 * a + digitVal c) 0

/-- Scale a rational by a signed power of ten. -/
def applyExp (q : ℚ) (e : ℤ) : ℚ :=
  if 0 ≤ e then q * (10 : ℚ) ^ e.toNat else q / (10 : ℚ) ^ (-e).toNat

/-- Case-insensitive comparison of a character list against a lowercase
pattern, mirroring how CPython recognises `inf` / `nan` spellings. -/
def ciEqList (cs : List Char) (pat : List Char) : Bool :=
  cs.map Char.toLower == pat

/-- Parse the decimal part of a CPython float literal: digits, an optional
fraction, an optional exponent; the whole input must be consumed.
Returns the exact rational value. -/
def parseDecimalCore (cs : List Char) : Option ℚ :=
  let (ip, r1) := cs.span Char.isDigit
  let (fp, r2) :=
    match r1 with
    | '.' :: rest => rest.span Char.isDigit
    | _ => ([], r1)
  if ip.isEmpty && fp.isEmpty then none
  else
    let mantissa : ℚ :=
      (natOfDigits ip : ℚ) + (natOfDigits fp : ℚ) / (10 : ℚ) ^ fp.length
    match r2 with
    | [] => some mantissa
    | 'e' :: rest => parseDecimalExp mantissa rest
    | 'E' :: rest => parseDecimalExp mantissa rest
    | _ => none
where
  /-- Parse the exponent part after `e`/`E`: optional sign, one or more
  digits, end of input. -/
  parseDecimalExp (m : ℚ) (cs : List Char) : Option ℚ :=
    let (neg, ds) :=
      match cs with
      | '+' :: rest => (false, rest)
      | '-' :: rest => (true, rest)
      | _ => (false, cs)
    let (ed, rest) := ds.span Char.isDigit
    if ed.isEmpty || !rest.isEmpty then none
    else some (applyExp m (if neg then -(natOfDigits ed : ℤ) else (natOfDigits ed : ℤ)))

/-- Model of the CPython builtin `float(str)`: strip whitespace, accept an
optional sign followed by `inf`/`infinity`/`nan` (case-insensitive) or a
decimal literal with optional fraction and exponent. Underscore digit
separators are not modelled (none of the analysed inputs contain them),
and values are kept exact as rationals. -/
def pyFloatOfString (s : String) : Option PyFloat :=
  let cs := trimBy isPyWs s.data
  let (neg, body) :=
    match cs with
    | '+' :: rest => (false, rest)
    | '-' :: rest => (true, rest)
    | _ => (false, cs)
  if ciEqList body "inf".data || ciEqList body "infinity".data then
    some (if neg then PyFloat.neginf else PyFloat.inf)
  else if ciEqList body "nan".data then
    some PyFloat.nan
  else
    (parseDecimalCore body).map fun q =>
      PyFloat.finite (if neg then -q else q)

/-- Model of a Python value produced by `json.loads`: JSON null, booleans,
numbers (`json.loads` also accepts `NaN`, `Infinity`, `-Infinity`),
strings, arrays and objects. Object field lists are kept in insertion
order with unique keys, exactly as a Python dict stores them. -/
inductive JValue where
  | null
  | bool (b : Bool)
  | num (x : PyFloat)
  | str (s : String)
  | arr (elems : List JValue)
  | obj (fields : List (String × JValue))

mutual

/-- Structural equality on JSON values, used for dict keys. For the key
types that actually occur in parsed payloads this coincides with Python
`==` (integral and fractional JSON numbers with equal value are already
identified by the rational representation). -/
def beqJ : JValue → JValue → Bool
  | .null, .null => true
  | .bool a, .bool b => a == b
  | .num a, .num b => a == b
  | .str a, .str b => a == b
  | .arr a, .arr b => beqJList a b
  | .obj a, .obj b => beqJFields a b
  | _, _ => false

/-- Elementwise `beqJ` on lists of JSON values. -/
def beqJList : List JValue → List JValue → Bool
  | [], [] => true
  | a :: as, b :: bs => beqJ a b && beqJList as bs
  | _, _ => false

/-- Elementwise `beqJ` on object field lists. -/
def beqJFields : List (String × JValue) → List (String × JValue) → Bool
  | [], [] => true
  | (ka, va) :: as, (kb, vb) :: bs => ka == kb && beqJ va vb && beqJFields as bs
  | _, _ => false

end

/-- Insert a key into an object field list with Python dict semantics: an
existing key keeps its original position and gets the new value, a new key
is appended. -/
def dictInsert (fields : List (String × JValue)) (k : String) (v : JValue) :
    List (String × JValue) :=
  match fields with
  | [] => [(k, v)]
  | (k₀, v₀) :: rest =>
    if k₀ = k then (k₀, v) :: rest else (k₀, v₀) :: dictInsert rest k v

/-- Model of Python `dict.get` on an object field list (field keys are
unique, so the first match is the only one). -/
def jsonGet (fields : List (String × JValue)) (k : String) : Option JValue :=
  (fields.find? (fun f => f.1 = k)).map (·.2)

/-- JSON whitespace accepted between tokens by `json.loads`. -/
def isJsonWs (c : Char) : Bool :=
  c = ' ' || c = '\t' || c = '\n' || c = '\r'

/-- Skip JSON whitespace. -/
def skipJWs (cs : List Char) : List Char :=
  cs.dropWhile isJsonWs

/-- Value of a hexadecimal digit character, if it is one. -/
def hexVal (c : Char) : Option ℕ :=
  if '0' ≤ c && c ≤ '9' then some (c.toNat - 48)
  else if 'a' ≤ c && c ≤ 'f' then some (c.toNat - 87)
  else if 'A' ≤ c && c ≤ 'F' then some (c.toNat - 55)
  else none

/-- Scan a JSON string body after the opening quote, handling the escape
sequences accepted by `json.loads` in strict mode and rejecting raw
control characters, as CPython does. Returns the content and the input
remaining after the closing quote. -/
def scanJString : ℕ → List Char → List Char → Option (List Char × List Char)
  | 0, _, _ => none
  | fuel + 1, acc, cs =>
    match cs with
    | [] => none
    | '"' :: rest => some (acc.reverse, rest)
    | '\\' :: esc => scanEscape fuel acc esc
    | c :: rest =>
      if c.toNat < 32 then none else scanJString fuel (c :: acc) rest
where
  /-- Decode one escape sequence after a backslash. -/
  scanEscape (fuel : ℕ) (acc : List Char) : List Char → Option (List Char × List Char)
    | '"' :: r => scanJString fuel ('"' :: acc) r
    | '\\' :: r => scanJString fuel ('\\' :: acc) r
    | '/' :: r => scanJString fuel ('/' :: acc) r
    | 'b' :: r => scanJString fuel ('\x08' :: acc) r
    | 'f' :: r => scanJString fuel ('\x0c' :: acc) r
    | 'n' :: r => scanJString fuel ('\n' :: acc) r
    | 'r' :: r => scanJString fuel ('\r' :: acc) r
    | 't' :: r => scanJString fuel ('\t' :: acc) r
    | 'u' :: h1 :: h2 :: h3 :: h4 :: r =>
      match hexVal h1, hexVal h2, hexVal h3, hexVal h4 with
      | some a, some b, some c, some d =>
        scanJString fuel (Char.ofNat (((a * 16 + b) * 16 + c) * 16 + d) :: acc) r
      | _, _, _, _ => none
    | _ => none

/-- Parse a JSON number token per the grammar used by `json.loads`:
optional minus, `0` or a nonzero-led digit run, optional `.digits`,
optional exponent. Leading zeros such as `007` are rejected, exactly as in
Python. Returns the value and the remaining input. -/
def parseJNumber (cs : List Char) : Option (ℚ × List Char) :=
  let (neg, b0) :=
    match cs with
    | '-' :: rest => (true, rest)
    | _ => (false, cs)
  match parseIntPart b0 with
  | none => none
  | some (ip, r1) =>
    let (fp, r2) :=
      match r1 with
      | '.' :: d :: rest =>
        if d.isDigit then
          let (ds, r) := (d :: rest).span Char.isDigit
          (ds, r)
        else ([], r1)
      | _ => ([], r1)
    let (ex, r3) := parseExpPart r2
    let mantissa : ℚ :=
      (natOfDigits ip : ℚ) + (natOfDigits fp : ℚ) / (10 : ℚ) ^ fp.length
    let value := applyExp mantissa ex
    some ((if neg then -value else value), r3)
where
  /-- Integer part: `0`, or a digit run starting with `1`-`9`. -/
  parseIntPart : List Char → Option (List Char × List Char)
    | '0' :: rest => some (['0'], rest)
    | c :: rest =>
      if c.isDigit then
        let (ds, r) := (c :: rest).span Char.isDigit
        some (ds, r)
      else none
    | [] => none
  /-- Optional exponent part; consumed only when fully well-formed,
  mirroring the regex group `([eE][-+]?\d+)?`. -/
  parseExpPart (cs : List Char) : ℤ × List Char :=
    match cs with
    | e :: rest =>
      if e = 'e' || e = 'E' then
        let (neg, ds) :=
          match rest with
          | '+' :: r => (false, r)
          | '-' :: r => (true, r)
          | _ => (false, rest)
        let (ed, r) := ds.span Char.isDigit
        if ed.isEmpty then (0, cs)
        else ((if neg then -(natOfDigits ed : ℤ) else (natOfDigits ed : ℤ)), r)
      else (0, cs)
    | [] => (0, cs)

mutual

/-- Parse one JSON value at the head of the input (no leading whitespace),
mirroring the recursive descent of `json.loads` including the non-standard
literals `NaN`, `Infinity` and `-Infinity` that Python accepts by default.
The fuel argument dominates the nesting depth; `jsonParse` supplies enough
fuel for any input of the given length. -/
def parseJValue : ℕ → List Char → Option (JValue × List Char)
  | 0, _ => none
  | fuel + 1, cs =>
    match cs with
    | '\x7b' :: rest =>
      match skipJWs rest with
      | '\x7d' :: r => some (.obj [], r)
      | r => parseJFields fuel [] r
    | '[' :: rest =>
      match skipJWs rest with
      | ']' :: r => some (.arr [], r)
      | r => parseJElems fuel [] r
    | '"' :: rest =>
      (scanJString (rest.length + 1) [] rest).map fun (s, r) => (.str ⟨s⟩, r)
    | 't' :: 'r' :: 'u' :: 'e' :: rest => some (.bool true, rest)
    | 'f' :: 'a' :: 'l' :: 's' :: 'e' :: rest => some (.bool false, rest)
    | 'n' :: 'u' :: 'l' :: 'l' :: rest => some (.null, rest)
    | 'N' :: 'a' :: 'N' :: rest => some (.num .nan, rest)
    | 'I' :: 'n' :: 'f' :: 'i' :: 'n' :: 'i' :: 't' :: 'y' :: rest =>
      some (.num .inf, rest)
    | '-' :: 'I' :: 'n' :: 'f' :: 'i' :: 'n' :: 'i' :: 't' :: 'y' :: rest =>
      some (.num .neginf, rest)
    | _ => (parseJNumber cs).map fun (q, r) => (.num (.finite q), r)

/-- Parse the elements of a JSON array after the opening bracket (empty
arrays are handled by the caller). -/
def parseJElems : ℕ → List JValue → List Char → Option (JValue × List Char)
  | 0, _, _ => none
  | fuel + 1, acc, cs =>
    match parseJValue fuel cs with
    | none => none
    | some (v, rest) =>
      match skipJWs rest with
      | ',' :: r => parseJElems fuel (v :: acc) (skipJWs r)
      | ']' :: r => some (.arr (v :: acc).reverse, r)
      | _ => none

/-- Parse the members of a JSON object after the opening brace (empty
objects are handled by the caller). Duplicate keys behave like repeated
Python dict insertion: last value wins, first position kept. -/
def parseJFields : ℕ → List (String × JValue) → List Char → Option (JValue × List Char)
  | 0, _, _ => none
  | fuel + 1, acc, cs =>
    match cs with
    | '"' :: rest =>
      match scanJString (rest.length + 1) [] rest with
      | none => none
      | some (k, r1) =>
        match skipJWs r1 with
        | ':' :: r2 =>
          match parseJValue fuel (skipJWs r2) with
          | none => none
          | some (v, r3) =>
            match skipJWs r3 with
            | ',' :: r4 => parseJFields fuel (dictInsert acc ⟨k⟩ v) (skipJWs r4)
            | '\x7d' :: r4 => some (.obj (dictInsert acc ⟨k⟩ v), r4)
            | _ => none
        | _ => none
    | _ => none

end

/-- Model of Python `json.loads`: parse one JSON document with optional
surrounding whitespace; any trailing data is an error (`None` models the
`JSONDecodeError` raised by Python). -/
def jsonParse (s : String) : Option JValue :=
  let cs := skipJWs s.data
  match parseJValue (cs.length + 1) cs with
  | some (v, rest) => if (skipJWs rest).isEmpty then some v else none
  | none => none

/-- A Python dict mapping job identities to refined scores, as built by the
parsers in `llm_refiner.py`. Keys are modelled as JSON values because the
code uses whatever value the `job_id` field held; insertion order is kept
and assigning to an existing key updates it in place, as in Python. -/
abbrev PyDict := List (JValue × PyFloat)

/-- Whether a value can be used as a Python dict key (lists and dicts are
unhashable and make the assignment raise `TypeError`). -/
def jHashable : JValue → Bool
  | .arr _ => false
  | .obj _ => false
  | _ => true

/-- Python truthiness of a JSON-derived value (`None`, `False`, zero, and
empty containers or strings are falsy). -/
def pyTruthy : JValue → Bool
  | .null => false
  | .bool b => b
  | .num (.finite q) => decide (q ≠ 0)
  | .num _ => true
  | .str s => !s.isEmpty
  | .arr l => !l.isEmpty
  | .obj f => !f.isEmpty

/-- Truthiness of the result of `dict.get` (a missing key gives `None`,
which is falsy). -/
def pyTruthyOpt : Option JValue → Bool
  | none => false
  | some v => pyTruthy v

/-- Model of calling the builtin `float` on the result of `dict.get`:
`none` means the call raises `TypeError` or `ValueError`. Booleans coerce
to 0.0 / 1.0, numbers pass through, strings go through the float grammar,
`None`, lists and dicts raise. -/
def pyFloatCoerce : Option JValue → Option PyFloat
  | none => none
  | some .null => none
  | some (.bool b) => some (.finite (if b then 1 else 0))
  | some (.num x) => some x
  | some (.str s) => pyFloatOfString s
  | some (.arr _) => none
  | some (.obj _) => none

/-- Assignment `d[k] = v` on the refined-score dict: update in place or
append. -/
def pyDictSet (d : PyDict) (k : JValue) (v : PyFloat) : PyDict :=
  match d with
  | [] => [(k, v)]
  | (k₀, v₀) :: rest =>
    if beqJ k₀ k then (k₀, v) :: rest else (k₀, v₀) :: pyDictSet rest k v

/-- Assignment `d[k] = v` on a string-keyed dict (used by the relaxed
fallback, whose keys always come from a string capture group). -/
def strDictSet (d : List (String × PyFloat)) (k : String) (v : PyFloat) :
    List (String × PyFloat) :=
  match d with
  | [] => [(k, v)]
  | (k₀, v₀) :: rest =>
    if k₀ = k then (k₀, v) :: rest else (k₀, v₀) :: strDictSet rest k v

/-- One iteration of the `for entry in payload` loop in
`_parse_refined_scores` (src/llm_refiner.py lines 157-168): `entry.get`
raises `AttributeError` on a non-dict entry; a falsy `job_id` skips the
entry; `refined[job_id] = float(score)` is attempted under a handler that
catches `TypeError` and `ValueError`, so an uncoercible score or an
unhashable `job_id` drops the entry individually. -/
def tier1Step (acc : PyDict) (entry : JValue) : Except PyExc PyDict :=
  match entry with
  | .obj fields =>
    let jobId := jsonGet fields "job_id"
    let score := jsonGet fields "refined_score"
    if !pyTruthyOpt jobId then .ok acc
    else
      match jobId with
      | some k =>
        match pyFloatCoerce score with
        | none => .ok acc
        | some v => if jHashable k then .ok (pyDictSet acc k v) else .ok acc
      | none => .ok acc
  | _ => .error .attributeError

/-- Case-insensitive literal match at the head of the input: the pattern is
given in lowercase and compared against lowercased input characters,
modelling `re.IGNORECASE`. Returns the remaining input on success. -/
def ciLit : List Char → List Char → Option (List Char)
  | [], cs => some cs
  | _ :: _, [] => none
  | p :: ps, c :: cs => if c.toLower = p then ciLit ps cs else none

/-- A character allowed inside the score capture group `[^,\}\]]+` of the
relaxed pattern. -/
def isScoreChar (c : Char) : Bool :=
  !(c = ',' || c = '\x7d' || c = ']')

/-- Attempt the suffix `"refined_score"\s*:\s*(?P<score>[^,\}\]]+)` of the
relaxed pattern at the current position. The quantifiers are deterministic
except for the final `\s*`, which backtracks one character when the score
class cannot match after maximal whitespace (whitespace itself belongs to
the score class), exactly as the backtracking engine does. Returns the raw
score capture and the input remaining after the match. -/
def tryScoreAt (cs : List Char) : Option (List Char × List Char) :=
  match ciLit "\"refined_score\"".data cs with
  | none => none
  | some r1 =>
    match r1.dropWhile isPyWs with
    | ':' :: r3 =>
      let (w2, r4) := r3.span isPyWs
      let (sc, r5) := r4.span isScoreChar
      if !sc.isEmpty then some (sc, r5)
      else
        match w2.reverse with
        | wl :: _ => some ([wl], r4)
        | [] => none
    | _ => none

/-- The lazy gap `[^\}]*?` before the score suffix: try the suffix at each
position in turn, never stepping over a closing brace. -/
def matchScoreTail : List Char → Option (List Char × List Char)
  | [] => none
  | c :: rest =>
    match tryScoreAt (c :: rest) with
    | some r => some r
    | none => if c = '\x7d' then none else matchScoreTail rest

/-- Attempt the full relaxed pattern
`"job_id"\s*:\s*"(?P<job_id>[^"]+)"[^\}]*?"refined_score"\s*:\s*(?P<score>[^,\}\]]+)`
at the current position (src/llm_refiner.py lines 174-177). Returns the two
capture groups and the remaining input. -/
def matchJobAt (cs : List Char) : Option (String × String × List Char) :=
  match ciLit "\"job_id\"".data cs with
  | none => none
  | some r1 =>
    match r1.dropWhile isPyWs with
    | ':' :: r3 =>
      match r3.dropWhile isPyWs with
      | '"' :: r5 =>
        let (jid, r6) := r5.span (fun c => !(c = '"'))
        if jid.isEmpty then none
        else
          match r6 with
          | '"' :: r7 =>
            match matchScoreTail r7 with
            | some (sc, rest) => some (⟨jid⟩, ⟨sc⟩, rest)
            | none => none
          | _ => none
      | _ => none
    | _ => none

/-- Model of `pattern.finditer`: scan left to right, emitting each
non-overlapping leftmost match and resuming after its end. The fuel is
bounded by the input length since every step consumes at least one
character. -/
def relaxedMatchesAux : ℕ → List Char → List (String × String)
  | 0, _ => []
  | _ + 1, [] => []
  | fuel + 1, c :: rest =>
    match matchJobAt (c :: rest) with
    | some (j, s, r) => (j, s) :: relaxedMatchesAux fuel r
    | none => relaxedMatchesAux fuel rest

/-- All matches of the relaxed pattern in the response text. -/
def relaxedMatches (s : String) : List (String × String) :=
  relaxedMatchesAux (s.data.length + 1) s.data

/-- Test for `re.fullmatch(r"0+", s)`: a nonempty run of zeros. -/
def isAllZeros (cs : List Char) : Bool :=
  !cs.isEmpty && cs.all (fun c => c = '0')

/-- Test for `re.fullmatch(r"0+[0-9]+(\.[0-9]+)?", s)`: at least two
digits, the first a zero, with an optional fraction. -/
def leadZeroNumMatch (cs : List Char) : Bool :=
  match cs with
  | '0' :: c2 :: _ =>
    if c2.isDigit then
      let (_, r) := cs.span Char.isDigit
      match r with
      | [] => true
      | '.' :: fs =>
        let (fd, fr) := fs.span Char.isDigit
        !fd.isEmpty && fr.isEmpty
      | _ => false
    else false
  | _ => false

/-- The `lstrip("0")` normalisation applied to a leading-zero literal,
restoring a `0` before a bare decimal point. -/
def fixLeadZero (cs : List Char) : List Char :=
  let t := cs.dropWhile (fun c => c = '0')
  match t with
  | '.' :: _ => '0' :: t
  | _ => t

/-- Processing of a single relaxed match (src/llm_refiner.py lines
180-208): strip both captures, drop the entry when either is empty, strip
quotes from the score, skip `nan`/`none` values, collapse leading-zero
literals, and keep the entry only when `float` accepts the result. -/
def relaxedStep (d : List (String × PyFloat)) (m : String × String) :
    List (String × PyFloat) :=
  let jobId := pyStrip m.1
  let scoreRaw := pyStrip m.2
  if jobId.isEmpty || scoreRaw.isEmpty then d
  else
    let normalized₀ := stripQuotes scoreRaw.data
    let lowered : String := ⟨normalized₀.map Char.toLower⟩
    if lowered = "nan" || lowered = "none" then d
    else
      let normalized :=
        if isAllZeros normalized₀ then ['0']
        else if leadZeroNumMatch normalized₀ then fixLeadZero normalized₀
        else normalized₀
      match pyFloatOfString ⟨normalized⟩ with
      | some v => strDictSet d jobId v
      | none => d

/-- Model of `_parse_relaxed_scores` (src/llm_refiner.py lines 172-212):
fold the per-match processing over every pattern match in the text. -/
def parseRelaxedScores (text : String) : List (String × PyFloat) :=
  (relaxedMatches text).foldl relaxedStep []

/-- Model of `_parse_refined_scores` (src/llm_refiner.py lines 144-169),
the entry point of the two-tier response parsing: strip the text, return
an empty dict for empty input, fall back to the relaxed scanner when
`json.loads` fails, and otherwise run the strict loop over the payload.
Iterating a payload that is not a list mirrors Python exactly: a nonempty
dict yields string keys whose `.get` raises `AttributeError`, a nonempty
string yields one-character strings with the same effect, an empty dict or
string iterates zero times, and numbers, booleans and `None` are not
iterable (`TypeError`). -/
def parseRefinedScores (response_text : String) : Except PyExc PyDict :=
  let t := pyStrip response_text
  if t.data.isEmpty then .ok []
  else
    match jsonParse t with
    | none => .ok ((parseRelaxedScores t).map fun kv => (.str kv.1, kv.2))
    | some (.arr entries) => entries.foldlM tier1Step []
    | some (.obj []) => .ok []
    | some (.obj (_ :: _)) => .error .attributeError
    | some (.str s) => if s.isEmpty then .ok [] else .error .attributeError
    | some _ => .error .typeError

/-- Container for jobs sent to an LLM for refinement (src/llm_refiner.py
lines 15-21). -/
structure RankedJob where
  job_id : String
  description : String
  score : ℚ
deriving DecidableEq, Repr

/-- The external state that the refinement gateway observes: whether each
client package imports, the raw text each provider call would return
(`none` models the call raising, which every provider wrapper catches and
turns into an empty dict), and the two credential environment variables.
The prompt built from the job list does not influence this model because
the response text is part of the state. -/
structure ProviderWorld where
  ollamaInstalled : Bool
  ollamaResponse : Option String
  geminiInstalled : Bool
  googleApiKey : Option String
  geminiResponse : Option String
  openaiInstalled : Bool
  openaiApiKey : Option String
  openaiResponse : Option String

/-- Truthiness of `os.environ.get(...)`: unset or empty is falsy. -/
def envTruthy : Option String → Bool
  | none => false
  | some s => !s.isEmpty

/-- Model of `_refine_with_ollama` (src/llm_refiner.py lines 45-78): a
missing package or a failed chat call gives an empty dict; otherwise the
response text goes through `_parse_refined_scores`, whose exceptions
propagate. -/
def refineWithOllama (w : ProviderWorld) (_jobs : List RankedJob) :
    Except PyExc PyDict :=
  if !w.ollamaInstalled then .ok []
  else
    match w.ollamaResponse with
    | none => .ok []
    | some text => parseRefinedScores text

/-- Model of `_refine_with_gemini` (src/llm_refiner.py lines 81-110): a
missing package, an unset or empty `GOOGLE_API_KEY`, or a failed call give
an empty dict; otherwise the response is parsed. -/
def refineWithGemini (w : ProviderWorld) (_jobs : List RankedJob) :
    Except PyExc PyDict :=
  if !w.geminiInstalled then .ok []
  else if !envTruthy w.googleApiKey then .ok []
  else
    match w.geminiResponse with
    | none => .ok []
    | some text => parseRefinedScores text

/-- Model of `_refine_with_openai` (src/llm_refiner.py lines 113-141),
analogous to the Gemini wrapper with `OPENAI_API_KEY`. -/
def refineWithOpenai (w : ProviderWorld) (_jobs : List RankedJob) :
    Except PyExc PyDict :=
  if !w.openaiInstalled then .ok []
  else if !envTruthy w.openaiApiKey then .ok []
  else
    match w.openaiResponse with
    | none => .ok []
    | some text => parseRefinedScores text

/-- Model of `refine_scores` (src/llm_refiner.py lines 215-260): empty job
lists and unrecognised providers return an empty dict, an explicit
recognised provider dispatches directly, and the auto-detect path tries
the local provider first, keeps a nonempty result, and otherwise consults
the hosted providers guarded by their credentials. -/
def refine_scores (w : ProviderWorld) (jobs : List RankedJob)
    (provider : Option String) (_model_name : Option String) :
    Except PyExc PyDict :=
  if jobs.isEmpty then .ok []
  else
    let normalizedProvider := (provider.getD "").toLower
    if !(normalizedProvider = "gemini" || normalizedProvider = "openai" ||
        normalizedProvider = "ollama" || normalizedProvider = "") then
      .ok []
    else if normalizedProvider = "ollama" then refineWithOllama w jobs
    else if normalizedProvider = "gemini" then refineWithGemini w jobs
    else if normalizedProvider = "openai" then refineWithOpenai w jobs
    else
      match refineWithOllama w jobs with
      | .error e => .error e
      | .ok localResult =>
        if !localResult.isEmpty then .ok localResult
        else if envTruthy w.googleApiKey then refineWithGemini w jobs
        else if envTruthy w.openaiApiKey then refineWithOpenai w jobs
        else .ok []

/-- The strict-then-stable comparison underlying a stable descending sort
by a rational key: an index-tagged element precedes another when its key
is larger, or when the keys tie and it appeared earlier. Python `sorted`
with `reverse=True` is stable, so its output is exactly the sort by this
total order on index-tagged elements. -/
def stableDescRel (key : α → ℚ) (p q : ℕ × α) : Prop :=
  key q.2 < key p.2 ∨ (key p.2 = key q.2 ∧ p.1 ≤ q.1)

instance (key : α → ℚ) : DecidableRel (stableDescRel key) := fun p q => by
  unfold stableDescRel
  infer_instance

instance (key : α → ℚ) : IsTotal (ℕ × α) (stableDescRel key) where
  total p q := by
    unfold stableDescRel
    rcases lt_trichotomy (key p.2) (key q.2) with h | h | h
    · exact Or.inr (Or.inl h)
    · rcases Nat.le_total p.1 q.1 with h1 | h1
      · exact Or.inl (Or.inr ⟨h, h1⟩)
      · exact Or.inr (Or.inr ⟨h.symm, h1⟩)
    · exact Or.inl (Or.inl h)

instance (key : α → ℚ) : IsTrans (ℕ × α) (stableDescRel key) where
  trans p q r hpq hqr := by
    unfold stableDescRel at *
    rcases hpq with h1 | ⟨h1, h1i⟩ <;> rcases hqr with h2 | ⟨h2, h2i⟩
    · exact Or.inl (h2.trans h1)
    · exact Or.inl (h2 ▸ h1)
    · exact Or.inl (h1 ▸ h2)
    · exact Or.inr ⟨h1.trans h2, h1i.trans h2i⟩

instance : IsAntisymm (ℕ × ℚ) (stableDescRel id) where
  antisymm p q hpq hqp := by
    unfold stableDescRel at *
    rcases hpq with h1 | ⟨h1, h1i⟩ <;> rcases hqp with h2 | ⟨h2, h2i⟩
    · exact absurd (h1.trans h2) (lt_irrefl _)
    · exact absurd h1 (h2 ▸ lt_irrefl _)
    · exact absurd h2 (h1 ▸ lt_irrefl _)
    · exact Prod.ext (Nat.le_antisymm h1i h2i) h1

/-- Model of `sorted(zip(jobs, similarities), key=lambda item: item[1],
reverse=True)` (src/rank_jobs.py lines 142-146). Python `sorted` is
guaranteed stable, including under `reverse=True`, so it is modelled as
the unique sort of the index-tagged list under the total order
`stableDescRel`; the tags record original corpus positions. -/
def pyRankDesc (pairs : List (α × ℚ)) : List (ℕ × (α × ℚ)) :=
  pairs.enum.insertionSort (stableDescRel Prod.snd)

/-- The ranked job list as produced by `main` in src/rank_jobs.py: the
stable descending sort with the index tags dropped. -/
def rankJobs (jobs : List α) (sims : List ℚ) : List (α × ℚ) :=
  (pyRankDesc (jobs.zip sims)).map Prod.snd

/-- Exact dot product of two embedding vectors. -/
def dotProduct (u v : List ℚ) : ℚ :=
  (u.zip v).foldl (fun a p => a + p.1 * p.2) 0

/-- Keep the earlier element unless a strictly higher score appears later:
the scan that a top-k heap performs over index-ordered candidates. -/
def selectBest (b : ℕ × ℚ) : List (ℕ × ℚ) → ℕ × ℚ
  | [] => b
  | x :: xs => if b.2 < x.2 then selectBest x xs else selectBest b xs

/-- Remove the first occurrence of an element from a candidate list. -/
def removeOne (b : ℕ × ℚ) : List (ℕ × ℚ) → List (ℕ × ℚ)
  | [] => []
  | x :: xs => if x = b then xs else x :: removeOne b xs

/-- Iterated best-first selection: emit the best remaining candidate and
remove it, `k` times. -/
def selectionRank : ℕ → List (ℕ × ℚ) → List (ℕ × ℚ)
  | 0, _ => []
  | _ + 1, [] => []
  | k + 1, x :: xs =>
    let b := selectBest x xs
    b :: selectionRank k (removeOne b (x :: xs))

/-- Modelled from the spec: the FAISS flat inner-product index built and
searched by `build_faiss_index` / `faiss_search`
(src/ranking/embedding_utils.py lines 96-114) is third-party code absent
from the repository. Per the spec (sections 3 and 4.2) it performs exact,
exhaustive inner-product search, returning the `k` best corpus indices by
descending score with the stable tie-break on original input order. The
search is modelled as iterated best-first selection over the exact
dot-product scores, which is how a k-selection structure consumes the
score stream. -/
def faissFlatIPSearch (corpus : List (List ℚ)) (query : List ℚ) (k : ℕ) :
    List ℕ :=
  (selectionRank k ((corpus.map fun v => dotProduct v query).enum)).map Prod.fst

/-- The ordering the spec names as ground truth: sort the exhaustive
dot-product scores descending (stable on input order) and list the corpus
indices. -/
def exhaustiveRanking (corpus : List (List ℚ)) (query : List ℚ) : List ℕ :=
  (((corpus.map fun v => dotProduct v query).enum).insertionSort
    (stableDescRel id)).map Prod.fst

/-- A row of the `scores` table (src/sql/__init__.py lines 31-36): primary
key `job_id` plus the base score, the optional refined score (`NULL`
modelled as `none`) and the update timestamp. -/
structure ScoreRow where
  score : ℚ
  llm_refined_score : Option ℚ
  updated_at : ℕ
deriving DecidableEq, Repr

/-- Model of `upsert_score` (src/sql/__init__.py lines 147-166):
`INSERT ... ON CONFLICT(job_id) DO UPDATE SET score=excluded.score,
llm_refined_score=COALESCE(excluded.llm_refined_score, llm_refined_score),
updated_at=CURRENT_TIMESTAMP`. On a key conflict the base score is always
overwritten while the refined score falls back to the stored value when
the excluded one is `NULL`; otherwise a fresh row is inserted. The
current timestamp is passed explicitly. -/
def upsert_score (db : List (String × ScoreRow)) (now : ℕ) (job_id : String)
    (score : ℚ) (llm_refined_score : Option ℚ) : List (String × ScoreRow) :=
  match db with
  | [] => [(job_id, ⟨score, llm_refined_score, now⟩)]
  | (k, r) :: rest =>
    if k = job_id then
      (k, ⟨score, (llm_refined_score.orElse fun _ => r.llm_refined_score), now⟩) :: rest
    else
      (k, r) :: upsert_score rest now job_id score llm_refined_score

/-- Lookup of a scores row by primary key. -/
def lookupScore (db : List (String × ScoreRow)) (job_id : String) :
    Option ScoreRow :=
  (db.find? (fun kv => kv.1 = job_id)).map (·.2)

/-- A row of the `job_postings` table as seen by `fetch_job_descriptions`:
the `job_id` column is nullable, the `description` column is declared
`NOT NULL` but the query re-checks it, so both are optional here. -/
structure JobPostingRow where
  job_id : Option String
  description : Option String
deriving DecidableEq, Repr

/-- SQLite `TRIM` removes space characters only. -/
def sqliteTrim (s : String) : String :=
  ⟨trimBy (fun c => c = ' ') s.data⟩

/-- Model of `fetch_job_descriptions` (src/sql/__init__.py lines 169-181):
the SQL keeps rows whose description is non-null and nonempty after
`TRIM`, and the Python comprehension then keeps rows with a truthy
`job_id`. -/
def fetch_job_descriptions (table : List JobPostingRow) :
    List (String × String) :=
  table.filterMap fun r =>
    match r.description with
    | none => none
    | some d =>
      if (sqliteTrim d).isEmpty then none
      else
        match r.job_id with
        | none => none
        | some j => if j.isEmpty then none else some (j, d)

/-- Normalized representation of a job description pulled from SQLite
(src/rank_jobs.py lines 31-36). -/
structure JobDescription where
  job_id : String
  description : String
deriving DecidableEq, Repr

/-- Model of `_load_jobs_from_db` (src/rank_jobs.py lines 49-61 and
src/ranking/rank_jobs.py lines 66-78, identical logic): convert the
fetched rows and raise `typer.BadParameter` when no job descriptions are
found; the error is modelled in the `Except` error channel with the
message text from the source. -/
def loadJobsFromDb (table : List JobPostingRow) :
    Except String (List JobDescription) :=
  let jobs := (fetch_job_descriptions table).map fun rd =>
    JobDescription.mk rd.1 rd.2
  if jobs.isEmpty then
    .error "No job descriptions found in job_postings. Run the scraper to ingest posts before ranking."
  else
    .ok jobs

/-- Specification-side characterisation of one strict-parser step: an
entry contributes its identity and coerced score exactly when the
identity is truthy and hashable and the score coerces to a float;
otherwise the entry is dropped and the accumulated dict is unchanged. -/
def tier1Keep (d : PyDict) (fields : List (String × JValue)) : PyDict :=
  match jsonGet fields "job_id", pyFloatCoerce (jsonGet fields "refined_score") with
  | some k, some v => if pyTruthy k && jHashable k then pyDictSet d k v else d
  | _, _ => d

/-- C10: the strict parser raises instead of returning a mapping when the
response is valid JSON but not an array: a nonempty top-level object makes
`entry.get` run on a string key (`AttributeError`), and a bare number is
not iterable (`TypeError`). The claim that `_parse_refined_scores` never
raises is contradicted by the code at these inputs. -/
theorem parse_refined_scores_raises_on_nonarray_json :
    parseRefinedScores "\x7b\"a\": 1\x7d" = .error .attributeError ∧
    parseRefinedScores "5" = .error .typeError :=
  ⟨by with_unfolding_all rfl, by with_unfolding_all rfl⟩

/-- C2 counterexample: a provider response carrying `refined_score: 5.0`
is parsed to the value 5, which lies outside the interval [0, 1]; no
clamping happens anywhere in the parsing path. -/
theorem refined_score_value_escapes_unit_interval :
    parseRefinedScores "[\x7b\"job_id\": \"a\", \"refined_score\": 5.0\x7d]" =
      .ok [(.str "a", .finite 5)] ∧ ¬((5 : ℚ) ≤ 1) :=
  ⟨by with_unfolding_all rfl, by norm_num⟩

/-- C2 amended: parsed refinement values are passed through unclamped, so
they can lie outside [0, 1] on either side: the strict tier returns -0.5
as is, and the relaxed tier turns the literal `007` into 7. -/
theorem refined_scores_passed_through_unclamped :
    parseRefinedScores "[\x7b\"job_id\": \"b\", \"refined_score\": -0.5\x7d]" =
      .ok [(.str "b", .finite (-(1/2)))] ∧
    ((-(1/2) : ℚ) < 0) ∧
    parseRelaxedScores "\"job_id\": \"c\", \"refined_score\": 007" =
      [("c", .finite 7)] ∧
    ((1 : ℚ) < 7) :=
  ⟨by with_unfolding_all rfl, by norm_num, by with_unfolding_all rfl, by norm_num⟩

/-- C3 counterexample: with every provider installed, credentialed and
answering, an explicitly requested provider name outside
gemini/openai/ollama makes `refine_scores` return the empty mapping with
only a logged warning; no error reaches the caller, contradicting the
claim that this is reported as a configuration error. -/
theorem unknown_provider_skips_with_empty_result :
    refine_scores
      ⟨true, some "[]", true, some "key", some "[]", true, some "key", some "[]"⟩
      [⟨"j1", "d1", 1⟩] (some "anthropic") none = .ok [] := by
  with_unfolding_all rfl

/-- C3 amended: an explicitly requested provider name that is not a
recognised one (after lowercasing) makes `refine_scores` skip refinement
silently, returning the empty mapping to the caller for every provider
state and every nonempty job list. -/
theorem unknown_provider_returns_empty_mapping
    (w : ProviderWorld) (jobs : List RankedJob) (p : String) (mn : Option String)
    (hjobs : jobs ≠ [])
    (h1 : p.toLower ≠ "gemini") (h2 : p.toLower ≠ "openai")
    (h3 : p.toLower ≠ "ollama") (h4 : p.toLower ≠ "") :
    refine_scores w jobs (some p) mn = .ok [] := by
  cases jobs with
  | nil => exact absurd rfl hjobs
  | cons j js => simp [refine_scores, h1, h2, h3, h4]

/-- C3 witness: the amended statement applied to a concrete world,
job list and provider name. -/
theorem unknown_provider_returns_empty_mapping_witness :
    refine_scores ⟨false, none, false, none, none, false, none, none⟩
      [⟨"j2", "d2", 0⟩] (some "Claude") none = .ok [] :=
  unknown_provider_returns_empty_mapping _ _ _ _ (List.cons_ne_nil _ _)
    (by with_unfolding_all decide) (by with_unfolding_all decide)
    (by with_unfolding_all decide) (by with_unfolding_all decide)

/-- C4 counterexample: running the pipeline over an empty job store does
not produce an empty ranking; `_load_jobs_from_db` raises
`typer.BadParameter` before any ranking happens, so an empty corpus is an
error, contradicting the claim. -/
theorem empty_corpus_is_rejected :
    loadJobsFromDb [] =
      .error "No job descriptions found in job_postings. Run the scraper to ingest posts before ranking." := by
  with_unfolding_all rfl

/-- C4 amended: the pipeline treats an empty corpus as a usage error: when
the filtered job-description query returns no rows, loading raises
`BadParameter` with a message telling the user to run the scraper, and
only a nonempty corpus proceeds to ranking. -/
theorem load_jobs_errors_iff_no_rows (table : List JobPostingRow) :
    (fetch_job_descriptions table = [] →
      loadJobsFromDb table =
        .error "No job descriptions found in job_postings. Run the scraper to ingest posts before ranking.") ∧
    (fetch_job_descriptions table ≠ [] →
      loadJobsFromDb table =
        .ok ((fetch_job_descriptions table).map fun rd => JobDescription.mk rd.1 rd.2)) := by
  constructor
  · intro h
    simp [loadJobsFromDb, h]
  · intro h
    simp [loadJobsFromDb, h]

/-- C4 witness: the amended statement applied to a store whose only row is
filtered out by the query (empty `job_id`), which the loader rejects. -/
theorem load_jobs_errors_iff_no_rows_witness :
    loadJobsFromDb [⟨some "", some "x"⟩] =
      .error "No job descriptions found in job_postings. Run the scraper to ingest posts before ranking." :=
  (load_jobs_errors_iff_no_rows [⟨some "", some "x"⟩]).1 (by with_unfolding_all rfl)

/-- C9: upserting with a `NULL` refined score updates only the base score
and timestamp of an existing row, the stored refined score persisting
through `COALESCE`; upserting with a non-null refined score overwrites
both; rows with other keys are untouched either way. -/
theorem upsert_score_coalesce_semantics
    (db : List (String × ScoreRow)) (now : ℕ) (job_id : String) (b : ℚ)
    (row : ScoreRow) (h : lookupScore db job_id = some row) :
    lookupScore (upsert_score db now job_id b none) job_id =
      some ⟨b, row.llm_refined_score, now⟩ ∧
    (∀ v : ℚ, lookupScore (upsert_score db now job_id b (some v)) job_id =
      some ⟨b, some v, now⟩) ∧
    (∀ (llm : Option ℚ) (j : String), j ≠ job_id →
      lookupScore (upsert_score db now job_id b llm) j = lookupScore db j) := by
  induction db with
  | nil => simp [lookupScore] at h
  | cons kv rest ih =>
    obtain ⟨k, r⟩ := kv
    by_cases hk : k = job_id
    · subst hk
      have hr : r = row := by simpa [lookupScore, List.find?] using h
      subst hr
      refine ⟨?_, fun v => ?_, fun llm j hj => ?_⟩
      · simp [upsert_score, lookupScore, List.find?, Option.orElse]
      · simp [upsert_score, lookupScore, List.find?, Option.orElse]
      · simp [upsert_score, lookupScore, List.find?, Ne.symm hj]
    · have h' : lookupScore rest job_id = some row := by
        simpa [lookupScore, List.find?, hk] using h
      have ih' := ih h'
      refine ⟨?_, fun v => ?_, fun llm j hj => ?_⟩
      · simpa [upsert_score, lookupScore, List.find?, hk] using ih'.1
      · simpa [upsert_score, lookupScore, List.find?, hk] using ih'.2.1 v
      · by_cases hjk : j = k
        · subst hjk
          simp [upsert_score, lookupScore, List.find?, hk]
        · have hkj : ¬(k = j) := fun hh => hjk hh.symm
          simpa [upsert_score, lookupScore, List.find?, hk, hkj] using
            ih'.2.2 llm j hj

/-- C9 witness: the theorem applied to a one-row table, showing the
refined score from a previous run surviving a base-score update. -/
theorem upsert_score_coalesce_semantics_witness :
    lookupScore (upsert_score [("j", ⟨1, some (1/2), 0⟩)] 5 "j" 2 none) "j" =
      some ⟨2, some (1/2), 5⟩ :=
  (upsert_score_coalesce_semantics [("j", ⟨1, some (1/2), 0⟩)] 5 "j" 2
    ⟨1, some (1/2), 0⟩ (by with_unfolding_all rfl)).1

/-- C6: the relaxed fallback on non-JSON text finds every
`job_id ... refined_score` fragment (the fenced, leading-zero payload is
rejected by `json.loads` and lands in the relaxed tier, which extracts the
single fragment and yields 7.0 for the literal `007`), normalises
leading-zero literals (`"00.5"` becomes 0.5, the all-zero literal `000`
becomes 0.0), and skips entries whose value reads `nan` or `none` in any
case, while parsing the rest as floats. -/
theorem relaxed_scanner_extracts_normalises_and_skips :
    parseRefinedScores "```json\n[\x7b\"job_id\": \"x\", \"refined_score\": 007\x7d]\n```" =
      .ok [(.str "x", .finite 7)] ∧
    relaxedMatches "```json\n[\x7b\"job_id\": \"x\", \"refined_score\": 007\x7d]\n```" =
      [("x", "007")] ∧
    parseRelaxedScores "\"job_id\": \"w\", \"refined_score\": \"00.5\"" =
      [("w", .finite (1/2))] ∧
    parseRelaxedScores "\"job_id\": \"z\", \"refined_score\": 000" =
      [("z", .finite 0)] ∧
    (∀ d : List (String × PyFloat),
      relaxedStep d ("y", "nan") = d ∧ relaxedStep d ("y", "None") = d) :=
  ⟨by with_unfolding_all rfl, by with_unfolding_all rfl, by with_unfolding_all rfl,
    by with_unfolding_all rfl,
    fun d => ⟨by with_unfolding_all rfl, by with_unfolding_all rfl⟩⟩

/-- C1: on the auto-select path (no explicit provider, nonempty job list)
the local Ollama provider is consulted first and its mapping is the
result whenever it is nonempty; when it is empty, the Gemini provider is
called exactly when `GOOGLE_API_KEY` is truthy and its result is returned
as is with no further fallback; failing that, the OpenAI provider is
called exactly when `OPENAI_API_KEY` is truthy; with neither credential
the result is the empty mapping. -/
theorem auto_select_provider_order
    (w : ProviderWorld) (jobs : List RankedJob) (mn : Option String)
    (hjobs : jobs ≠ []) :
    (∀ d, refineWithOllama w jobs = .ok d → d ≠ [] →
      refine_scores w jobs none mn = .ok d) ∧
    (refineWithOllama w jobs = .ok [] → envTruthy w.googleApiKey = true →
      refine_scores w jobs none mn = refineWithGemini w jobs) ∧
    (refineWithOllama w jobs = .ok [] → envTruthy w.googleApiKey = false →
      envTruthy w.openaiApiKey = true →
      refine_scores w jobs none mn = refineWithOpenai w jobs) ∧
    (refineWithOllama w jobs = .ok [] → envTruthy w.googleApiKey = false →
      envTruthy w.openaiApiKey = false →
      refine_scores w jobs none mn = .ok []) := by
  cases jobs with
  | nil => exact absurd rfl hjobs
  | cons j js =>
    have key : refine_scores w (j :: js) none mn =
        (match refineWithOllama w (j :: js) with
        | .error e => .error e
        | .ok localResult =>
          if !localResult.isEmpty then .ok localResult
          else if envTruthy w.googleApiKey then refineWithGemini w (j :: js)
          else if envTruthy w.openaiApiKey then refineWithOpenai w (j :: js)
          else .ok []) := by
      with_unfolding_all rfl
    refine ⟨?_, ?_, ?_, ?_⟩
    · intro d hd hne
      rw [key, hd]
      cases d with
      | nil => exact absurd rfl hne
      | cons a as => simp
    · intro h0 hg
      rw [key, h0]
      simp [hg]
    · intro h0 hg ho
      rw [key, h0]
      simp [hg, ho]
    · intro h0 hg ho
      rw [key, h0]
      simp [hg, ho]

/-- C1 witness: the auto-select fallback named by the spec, with the local
provider returning unparseable text and only the OpenAI credential
present, gives exactly the direct OpenAI result. -/
theorem auto_select_provider_order_witness :
    refine_scores
      ⟨true, some "no json here", true, none, none, true, some "sk",
        some "[\x7b\"job_id\": \"g\", \"refined_score\": 0.25\x7d]"⟩
      [⟨"j3", "d3", 1⟩] none none =
    refineWithOpenai
      ⟨true, some "no json here", true, none, none, true, some "sk",
        some "[\x7b\"job_id\": \"g\", \"refined_score\": 0.25\x7d]"⟩
      [⟨"j3", "d3", 1⟩] :=
  (auto_select_provider_order _ _ none (List.cons_ne_nil _ _)).2.2.1
    (by with_unfolding_all rfl) (by with_unfolding_all rfl)
    (by with_unfolding_all rfl)

/-- One strict-parser step on an object entry never raises and agrees with
the specification-side keep function. -/
theorem tier1Step_obj (acc : PyDict) (f : List (String × JValue)) :
    tier1Step acc (.obj f) = .ok (tier1Keep acc f) := by
  unfold tier1Step tier1Keep
  rcases hjid : jsonGet f "job_id" with _ | k
  · simp [pyTruthyOpt, hjid]
  · rcases hsc : pyFloatCoerce (jsonGet f "refined_score") with _ | v
    · by_cases ht : pyTruthy k
      · simp [pyTruthyOpt, hjid, hsc, ht]
      · simp [pyTruthyOpt, hjid, ht]
    · by_cases ht : pyTruthy k
      · by_cases hh : jHashable k <;> simp [pyTruthyOpt, hjid, hsc, ht, hh]
      · simp [pyTruthyOpt, hjid, hsc, ht]

/-- The strict loop over a list of object entries never raises and folds
the keep function over the entries. -/
theorem tier1_foldlM_eq_foldl (entriesF : List (List (String × JValue))) :
    ∀ acc : PyDict,
      List.foldlM tier1Step acc (entriesF.map JValue.obj) =
        .ok (entriesF.foldl tier1Keep acc) := by
  induction entriesF with
  | nil => intro acc; rfl
  | cons f fs ih =>
    intro acc
    simp only [List.map_cons, List.foldlM_cons, tier1Step_obj, List.foldl_cons]
    simpa using ih (tier1Keep acc f)

/-- C5 counterexample: an entry whose `job_id` is a JSON array is truthy
and its score coerces to a float, yet the entry is dropped because the
dict assignment raises `TypeError` on the unhashable key, which the
per-entry handler swallows; the parse result is empty instead of keeping
the entry as the claim requires. -/
theorem tier1_drops_unhashable_truthy_identity :
    pyTruthy (.arr [.num (.finite 1)]) = true ∧
    pyFloatCoerce (some (.num (.finite (1/2)))) = some (.finite (1/2)) ∧
    parseRefinedScores "[\x7b\"job_id\": [1], \"refined_score\": 0.5\x7d]" = .ok [] :=
  ⟨rfl, rfl, by with_unfolding_all rfl⟩

/-- C5 amended: on every response text whose JSON parse is an array of
objects, the strict parser returns (without raising) exactly the fold of
the keep function: an entry contributes precisely when its `job_id` is
truthy and hashable and its `refined_score` coerces to float, and
malformed entries are dropped individually; in particular the two-entry
array from the claim keeps `a` at 0.7 and drops `b`. -/
theorem tier1_keeps_exactly_coercible_entries :
    (∀ (text : String) (entriesF : List (List (String × JValue))),
      jsonParse (pyStrip text) = some (.arr (entriesF.map JValue.obj)) →
      parseRefinedScores text = .ok (entriesF.foldl tier1Keep [])) ∧
    parseRefinedScores
        "[\x7b\"job_id\":\"a\",\"refined_score\":0.7\x7d,\x7b\"job_id\":\"b\",\"refined_score\":\"bad\"\x7d]" =
      .ok [(.str "a", .finite (7/10))] := by
  constructor
  · intro text entriesF h
    unfold parseRefinedScores
    by_cases ht : (pyStrip text).data.isEmpty
    · have hdata : (pyStrip text).data = [] := by simpa using ht
      have hnone : jsonParse (pyStrip text) = none := by
        unfold jsonParse
        rw [hdata]
        rfl
      rw [hnone] at h
      simp at h
    · simp only [ht, Bool.false_eq_true, if_false, h]
      exact tier1_foldlM_eq_foldl entriesF []
  · with_unfolding_all rfl

/-- C5 witness: the amended statement applied to a concrete single-entry
array. -/
theorem tier1_keeps_exactly_coercible_entries_witness :
    parseRefinedScores "[\x7b\"job_id\":\"k\",\"refined_score\":2\x7d]" =
      .ok ([[("job_id", JValue.str "k"), ("refined_score", JValue.num (.finite 2))]].foldl
        tier1Keep []) :=
  tier1_keeps_exactly_coercible_entries.1 _
    [[("job_id", JValue.str "k"), ("refined_score", JValue.num (.finite 2))]]
    (by with_unfolding_all rfl)

/-- C7: the ranking produced by the sorted call in `main` is descending in
the similarity score, ties are resolved by strictly increasing original
corpus position (first seen wins), the ranking is a permutation of the
index-tagged input, and equal inputs give equal rankings (determinism). -/
theorem ranking_descending_stable_deterministic
    (jobs : List JobDescription) (sims : List ℚ) :
    ((pyRankDesc (jobs.zip sims)).map fun p => p.2.2).Pairwise (fun a b => b ≤ a) ∧
    (pyRankDesc (jobs.zip sims)).Pairwise (fun p q => p.2.2 = q.2.2 → p.1 < q.1) ∧
    List.Perm (pyRankDesc (jobs.zip sims)) (jobs.zip sims).enum ∧
    (∀ (jobs₂ : List JobDescription) (sims₂ : List ℚ),
      jobs = jobs₂ → sims = sims₂ → rankJobs jobs sims = rankJobs jobs₂ sims₂) := by
  have hsorted : (pyRankDesc (jobs.zip sims)).Pairwise
      (stableDescRel (Prod.snd : JobDescription × ℚ → ℚ)) :=
    List.sorted_insertionSort _ _
  have hperm : List.Perm (pyRankDesc (jobs.zip sims)) (jobs.zip sims).enum :=
    List.perm_insertionSort _ _
  refine ⟨?_, ?_, hperm, ?_⟩
  · rw [List.pairwise_map]
    refine hsorted.imp ?_
    intro p q h
    rcases h with h | ⟨h, _⟩
    · exact le_of_lt h
    · exact le_of_eq h.symm
  · have hnodup : (pyRankDesc (jobs.zip sims)).Pairwise (fun p q => p.1 ≠ q.1) := by
      have h1 : ((jobs.zip sims).enum.map Prod.fst).Nodup := List.nodup_enum_map_fst _
      have h2 : ((pyRankDesc (jobs.zip sims)).map Prod.fst).Nodup :=
        ((hperm.map Prod.fst).nodup_iff).mpr h1
      exact List.pairwise_map.mp h2
    refine (hsorted.and hnodup).imp ?_
    rintro p q ⟨hr, hne⟩ heq
    rcases hr with h | ⟨_, hle⟩
    · exact absurd heq.symm h.ne
    · exact lt_of_le_of_ne hle hne
  · intro jobs₂ sims₂ hj hs
    rw [hj, hs]

/-- C7 witness: determinism applied to a concrete corpus. -/
theorem ranking_determinism_witness :
    rankJobs [JobDescription.mk "a" "d"] [(1 : ℚ)] =
      rankJobs [JobDescription.mk "a" "d"] [1] :=
  (ranking_descending_stable_deterministic [JobDescription.mk "a" "d"] [1]).2.2.2
    _ _ rfl rfl

/-- The selected candidate is one of the candidates. -/
theorem selectBest_mem (b : ℕ × ℚ) (l : List (ℕ × ℚ)) :
    selectBest b l ∈ b :: l := by
  induction l generalizing b with
  | nil => simp [selectBest]
  | cons x xs ih =>
    unfold selectBest
    by_cases h : b.2 < x.2
    · have hm := ih x
      simp only [List.mem_cons] at hm ⊢
      simp only [if_pos h]
      tauto
    · have hm := ih b
      simp only [List.mem_cons] at hm ⊢
      simp only [if_neg h]
      tauto

/-- The selection either keeps the accumulator or strictly improves the
score (so a tie on scores means the accumulator was kept). -/
theorem selectBest_eq_or_lt (b : ℕ × ℚ) (l : List (ℕ × ℚ)) :
    selectBest b l = b ∨ b.2 < (selectBest b l).2 := by
  induction l generalizing b with
  | nil => left; rfl
  | cons x xs ih =>
    unfold selectBest
    by_cases h : b.2 < x.2
    · simp only [if_pos h]
      rcases ih x with h1 | h2
      · right; rw [h1]; exact h
      · right; exact h.trans h2
    · simp only [if_neg h]
      exact ih b

/-- The selected candidate has the highest score among the candidates. -/
theorem selectBest_score_ge (l : List (ℕ × ℚ)) :
    ∀ (b : ℕ × ℚ), ∀ y ∈ b :: l, y.2 ≤ (selectBest b l).2 := by
  induction l with
  | nil =>
    intro b y hy
    simp only [List.mem_singleton] at hy
    rw [hy]
    exact le_rfl
  | cons x xs ih =>
    intro b y hy
    unfold selectBest
    by_cases h : b.2 < x.2
    · simp only [if_pos h]
      rcases List.mem_cons.mp hy with heq | hy2
      · rw [heq]
        exact le_trans (le_of_lt h) (ih x x (List.mem_cons_self _ _))
      · exact ih x y hy2
    · simp only [if_neg h]
      rcases List.mem_cons.mp hy with heq | hy2
      · rw [heq]
        exact ih b b (List.mem_cons_self _ _)
      · rcases List.mem_cons.mp hy2 with heq | hy3
        · rw [heq]
          exact le_trans (not_lt.mp h) (ih b b (List.mem_cons_self _ _))
        · exact ih b y (List.mem_cons_of_mem _ hy3)

/-- On a candidate list with strictly increasing indices, the selected
candidate precedes every candidate in the stable descending order: it has
a strictly higher score, or an equal score and a position no later. -/
theorem selectBest_rel (l : List (ℕ × ℚ)) :
    ∀ (b : ℕ × ℚ), (b :: l).Pairwise (fun p q => p.1 < q.1) →
      ∀ y ∈ b :: l, stableDescRel id (selectBest b l) y := by
  induction l with
  | nil =>
    intro b _ y hy
    simp only [List.mem_singleton] at hy
    rw [hy]
    exact Or.inr ⟨rfl, le_rfl⟩
  | cons x xs ih =>
    intro b hp y hy
    unfold selectBest
    by_cases h : b.2 < x.2
    · simp only [if_pos h]
      rcases List.mem_cons.mp hy with heq | hy2
      · rw [heq]
        exact Or.inl (lt_of_lt_of_le h (selectBest_score_ge xs x x (List.mem_cons_self _ _)))
      · exact ih x hp.of_cons y hy2
    · simp only [if_neg h]
      have hpbxs : (b :: xs).Pairwise (fun p q => p.1 < q.1) :=
        hp.sublist ((List.sublist_cons_self x xs).cons₂ b)
      rcases List.mem_cons.mp hy with heq | hy2
      · rw [heq]
        exact ih b hpbxs b (List.mem_cons_self _ _)
      · rcases List.mem_cons.mp hy2 with heq | hy3
        · have hxb : x.2 ≤ b.2 := not_lt.mp h
          have hbbest : b.2 ≤ (selectBest b xs).2 :=
            selectBest_score_ge xs b b (List.mem_cons_self _ _)
          rw [heq]
          rcases lt_or_eq_of_le (le_trans hxb hbbest) with hlt | hteq
          · exact Or.inl hlt
          · have hb2 : b.2 = (selectBest b xs).2 := le_antisymm hbbest (by
              rw [← hteq]
              exact hxb)
            have hEq : selectBest b xs = b := by
              rcases selectBest_eq_or_lt b xs with h1 | h2
              · exact h1
              · exact absurd h2 (by rw [← hb2]; exact lt_irrefl _)
            refine Or.inr ⟨hteq.symm, ?_⟩
            rw [hEq]
            exact le_of_lt (List.rel_of_pairwise_cons hp (List.mem_cons_self _ _))
        · exact ih b hpbxs y (List.mem_cons_of_mem _ hy3)

/-- Removal gives a sublist. -/
theorem removeOne_sublist (b : ℕ × ℚ) (l : List (ℕ × ℚ)) :
    List.Sublist (removeOne b l) l := by
  induction l with
  | nil => simp [removeOne]
  | cons x xs ih =>
    unfold removeOne
    by_cases h : x = b
    · simp only [if_pos h]
      exact List.sublist_cons_self x xs
    · simp only [if_neg h]
      exact ih.cons₂ x

/-- Removing a member and putting it in front is a permutation. -/
theorem perm_cons_removeOne {b : ℕ × ℚ} :
    ∀ {l : List (ℕ × ℚ)}, b ∈ l → List.Perm l (b :: removeOne b l) := by
  intro l
  induction l with
  | nil => intro h; simp at h
  | cons x xs ih =>
    intro h
    unfold removeOne
    by_cases hx : x = b
    · simp only [if_pos hx]
      rw [hx]
    · simp only [if_neg hx]
      have hb : b ∈ xs := by
        rcases List.mem_cons.mp h with heq | hmem
        · exact absurd heq.symm hx
        · exact hmem
      exact ((ih hb).cons x).trans (List.Perm.swap b x (removeOne b xs))

/-- Everything the selection loop emits comes from the candidate list. -/
theorem selectionRank_subset (k : ℕ) (l : List (ℕ × ℚ)) :
    ∀ y ∈ selectionRank k l, y ∈ l := by
  induction k generalizing l with
  | zero => simp [selectionRank]
  | succ k ih =>
    intro y hy
    cases l with
    | nil => simp [selectionRank] at hy
    | cons x xs =>
      unfold selectionRank at hy
      rcases List.mem_cons.mp hy with heq | hy2
      · rw [heq]
        exact selectBest_mem x xs
      · exact (removeOne_sublist _ _).subset (ih _ y hy2)

/-- On a candidate list with strictly increasing indices, the selection
loop emits a list sorted under the stable descending order. -/
theorem selectionRank_sorted (k : ℕ) (l : List (ℕ × ℚ))
    (hp : l.Pairwise (fun p q => p.1 < q.1)) :
    (selectionRank k l).Pairwise (stableDescRel id) := by
  induction k generalizing l with
  | zero => simp [selectionRank]
  | succ k ih =>
    cases l with
    | nil => simp [selectionRank]
    | cons x xs =>
      unfold selectionRank
      refine List.Pairwise.cons ?_ (ih _ (hp.sublist (removeOne_sublist _ _)))
      intro y hy
      exact selectBest_rel xs x hp y
        ((removeOne_sublist _ _).subset (selectionRank_subset _ _ y hy))

/-- Run for the full length of the candidate list, the selection loop
emits a permutation of it. -/
theorem selectionRank_perm_aux :
    ∀ (n : ℕ) (l : List (ℕ × ℚ)), l.length = n →
      List.Perm (selectionRank n l) l := by
  intro n
  induction n with
  | zero =>
    intro l hn
    rw [List.length_eq_zero] at hn
    subst hn
    simp [selectionRank]
  | succ n ih =>
    intro l hn
    cases l with
    | nil => simp at hn
    | cons x xs =>
      have hb := selectBest_mem x xs
      have hperm := perm_cons_removeOne hb
      have hlen : (removeOne (selectBest x xs) (x :: xs)).length = n := by
        have := hperm.length_eq
        simp only [List.length_cons] at this hn
        omega
      unfold selectionRank
      exact ((ih _ hlen).cons _).trans hperm.symm

/-- Run for the full length of the candidate list, the selection loop
emits a permutation of it. -/
theorem selectionRank_perm (l : List (ℕ × ℚ)) :
    List.Perm (selectionRank l.length l) l :=
  selectionRank_perm_aux l.length l rfl

/-- Every element of `enumFrom m l` has index at least `m`. -/
theorem le_fst_of_mem_enumFrom {α : Type} {y : ℕ × α} :
    ∀ (m : ℕ) (l : List α), y ∈ l.enumFrom m → m ≤ y.1 := by
  intro m l
  induction l generalizing m with
  | nil => intro hy; simp at hy
  | cons x xs ih =>
    intro hy
    simp only [List.enumFrom, List.mem_cons] at hy
    rcases hy with rfl | hy
    · exact le_rfl
    · exact le_trans (Nat.le_succ m) (ih (m + 1) hy)

/-- The index tags produced by `enumFrom` are strictly increasing. -/
theorem enumFrom_fst_pairwise {α : Type} (m : ℕ) (l : List α) :
    (l.enumFrom m).Pairwise (fun p q => p.1 < q.1) := by
  induction l generalizing m with
  | nil => simp
  | cons x xs ih =>
    simp only [List.enumFrom]
    refine List.Pairwise.cons ?_ (ih (m + 1))
    intro y hy
    exact lt_of_lt_of_le (Nat.lt_succ_self m) (le_fst_of_mem_enumFrom (m + 1) xs hy)

/-- C8: for every corpus of embeddings and every query embedding, the
ordering returned by the (spec-modelled) FAISS flat inner-product search
over the whole corpus is exactly the ordering obtained by stably sorting
the exhaustive dot-product scores in descending order. -/
theorem faiss_ordering_matches_exhaustive
    (corpus : List (List ℚ)) (query : List ℚ) :
    faissFlatIPSearch corpus query corpus.length = exhaustiveRanking corpus query := by
  unfold faissFlatIPSearch exhaustiveRanking
  have hlen : ((corpus.map fun v => dotProduct v query).enum).length = corpus.length := by
    simp
  have hpair : ((corpus.map fun v => dotProduct v query).enum).Pairwise
      (fun p q => p.1 < q.1) := by
    have := enumFrom_fst_pairwise 0 (corpus.map fun v => dotProduct v query)
    simpa [List.enum] using this
  have h1 : (selectionRank ((corpus.map fun v => dotProduct v query).enum).length
      ((corpus.map fun v => dotProduct v query).enum)).Pairwise (stableDescRel id) :=
    selectionRank_sorted _ _ hpair
  have h2 := selectionRank_perm ((corpus.map fun v => dotProduct v query).enum)
  have h3 : (List.insertionSort (stableDescRel id)
      ((corpus.map fun v => dotProduct v query).enum)).Pairwise (stableDescRel id) :=
    List.sorted_insertionSort _ _
  have h4 := List.perm_insertionSort (stableDescRel id)
    ((corpus.map fun v => dotProduct v query).enum)
  have heq := List.eq_of_perm_of_sorted (h2.trans h4.symm) h1 h3
  rw [← hlen]
  exact congrArg (List.map Prod.fst) heq
